import Mathlib

/-!
Verification of the basic-block-versioning JIT compilation engine
(the `yjit` crate: modules `core`, `codegen`, `invariants`, `asm`,
`options`, `yjit`).  The crate root only declares the modules; the
module bodies are not present in the source tree, so every definition
below is modelled from the specification, faithful to its words.
-/

namespace YJIT

/-- Modelled from the spec (§3, Context): per-stack-slot type estimate —
one of unknown, fixed small integer, specific heap-class, specific
immediate value, nil, boolean-true, boolean-false, or "same type as
self".  The module `core` holding this type is absent from the tree. -/
inductive TypeEst where
  | unknown
  | tint
  | theap (cls : Nat)
  | timm (v : Int)
  | tnil
  | ttrue
  | tfalse
  | tself
deriving DecidableEq, Repr

/-- Modelled from the spec (§3, Context): immutable value type holding the
stack of per-slot type estimates, a self-type estimate, and a chain depth
counting consecutive guard narrowings.  The stack depth is the length of
the slot list.  The module `core` holding this type is absent. -/
structure Context where
  slots : List TypeEst
  selfEst : TypeEst
  chainDepth : Nat
deriving DecidableEq, Repr

/-- The stack depth recorded by a context (spec §3). -/
def Context.stackDepth (c : Context) : Nat := c.slots.length

/-- Modelled from the spec (§4.1): `initial(entry-point)` — context with
empty/unknown estimates for all slots, used at method/block entry. -/
def initial (depth : Nat) : Context :=
  { slots := List.replicate depth TypeEst.unknown
    selfEst := TypeEst.unknown
    chainDepth := 0 }

/-- Modelled from the spec (§4.1): `narrow(context, slot, refined-type)` —
a new context with one slot tightened; a fixed maximum chain depth bounds
how often a slot may be narrowed, and exceeding it forces the estimate to
"unknown" rather than a deeper chain.  The module `core` is absent. -/
def narrow (maxChain : Nat) (c : Context) (slot : Nat) (t : TypeEst) : Context :=
  if c.chainDepth < maxChain then
    { slots := c.slots.set slot t
      selfEst := c.selfEst
      chainDepth := c.chainDepth + 1 }
  else
    { slots := c.slots.set slot TypeEst.unknown
      selfEst := c.selfEst
      chainDepth := c.chainDepth }

/-- A sequence of narrowing requests applied in order (spec §4.1). -/
def applyNarrows (maxChain : Nat) (ops : List (Nat × TypeEst)) (c : Context) : Context :=
  ops.foldl (fun acc op => narrow maxChain acc op.1 op.2) c

/-- Modelled from the spec (§3, §9): contexts are immutable once created;
narrowing produces a new context, never mutates an existing one.  We store
contexts in an arena addressed by stable integer handles and allocate the
narrowed context at a fresh handle. -/
def narrowAt (maxChain : Nat) (store : List Context) (i : Nat) (slot : Nat)
    (t : TypeEst) : List Context × Nat :=
  match store[i]? with
  | some c => (store ++ [narrow maxChain c slot t], store.length)
  | none => (store, i)

end YJIT

namespace YJIT

/-!  The host runtime's bytecode and its interpreter.  The spec treats
the interpreter as an external collaborator, so it is modelled from the
spec's interface description (§1, §6): dynamically typed values, observable
printed output, runtime exceptions, and a program counter. -/

/-- Modelled from the spec (§1, §6): dynamically typed runtime values of
the host program (integers, booleans, nil). -/
inductive Val where
  | int (n : Int)
  | vtrue
  | vfalse
  | vnil
deriving DecidableEq, Repr

/-- Modelled from the spec (§1, §4.4): host bytecode instructions.
`mystery` stands for an opcode the code generator cannot specialize
(spec §7, UnsupportedInstruction); the interpreter handles it (it swaps
the two top stack slots). -/
inductive Insn where
  | push (v : Val)
  | add
  | extprint
  | jz (t : Nat)
  | halt
  | mystery
deriving DecidableEq, Repr

/-- Ruby-style truthiness: nil and false are falsy (spec host model). -/
def falsy : Val → Bool
  | Val.vfalse => true
  | Val.vnil => true
  | _ => false

/-- Execution status of the host program. -/
inductive Status where
  | running
  | halted
  | errored
deriving DecidableEq, Repr

/-- Interpreter-visible state: program counter, operand stack, printed
output, status (spec §6: side exits restore exactly this state). -/
structure IState where
  pc : Nat
  stack : List Val
  out : List Val
  status : Status
deriving DecidableEq, Repr

/-- Modelled from the spec: one step of the host interpreter.  A type
error on `add` or an out-of-range access raises a runtime exception
(status `errored`); `extprint` appends to the observable output. -/
def stepI (prog : List Insn) (s : IState) : IState :=
  match s.status with
  | Status.running =>
    match prog[s.pc]? with
    | none => { s with status := Status.errored }
    | some i =>
      match i with
      | Insn.push v => { s with pc := s.pc + 1, stack := v :: s.stack }
      | Insn.add =>
        match s.stack with
        | Val.int a :: Val.int b :: r =>
            { s with pc := s.pc + 1, stack := Val.int (a + b) :: r }
        | _ => { s with status := Status.errored }
      | Insn.extprint =>
        match s.stack with
        | v :: r => { s with pc := s.pc + 1, stack := r, out := s.out ++ [v] }
        | [] => { s with status := Status.errored }
      | Insn.jz t =>
        match s.stack with
        | v :: r => { s with pc := if falsy v then t else s.pc + 1, stack := r }
        | [] => { s with status := Status.errored }
      | Insn.halt => { s with status := Status.halted }
      | Insn.mystery =>
        match s.stack with
        | a :: b :: r => { s with pc := s.pc + 1, stack := b :: a :: r }
        | _ => { s with status := Status.errored }
  | _ => s

/-- Fully interpreted execution for a given number of steps. -/
def runI (prog : List Insn) : Nat → IState → IState
  | 0, s => s
  | n + 1, s => runI prog n (stepI prog s)

theorem stepI_fix (prog : List Insn) (s : IState) (h : s.status ≠ Status.running) :
    stepI prog s = s := by
  unfold stepI
  cases hs : s.status with
  | running => exact absurd hs h
  | halted => rfl
  | errored => rfl

theorem runI_fix (prog : List Insn) (s : IState) (h : s.status ≠ Status.running) :
    ∀ n, runI prog n s = s := by
  intro n
  induction n with
  | zero => rfl
  | succ n ih =>
      show runI prog n (stepI prog s) = s
      rw [stepI_fix prog s h, ih]

theorem runI_one (prog : List Insn) (s : IState) : runI prog 1 s = stepI prog s := rfl

theorem runI_add (prog : List Insn) (m n : Nat) (s : IState) :
    runI prog (n + m) s = runI prog n (runI prog m s) := by
  induction m generalizing s with
  | zero => rfl
  | succ m ih =>
      show runI prog (n + m + 1) s = _
      have h1 : n + m + 1 = (n + m) + 1 := rfl
      rw [h1]
      show runI prog (n + m) (stepI prog s) = _
      rw [ih]
      rfl

/-!  The code generator (spec §4.4) and the abstract-instruction model of
generated native code (spec §2, assembler interface; §4.4 guards).  The
modules `codegen` and `asm` are absent from the tree, so both are
modelled from the spec. -/

/-- Modelled from the spec (§2, §4.4): architecture-independent abstract
micro-instructions emitted by the code generator.  `nguardInts` is a
speculative type guard whose failure side-exits to the interpreter at the
recorded bytecode position; `njz`/`nhalt` end the block. -/
inductive NInsn where
  | npushc (v : Val)
  | naddInt
  | nguardInts (deoptPc : Nat)
  | nprintv
  | njz (t : Nat) (fallPc : Nat)
  | nhalt (atPc : Nat)
deriving DecidableEq, Repr

/-- How native block execution ends: fall through to the next bytecode
position, or the program halted. -/
inductive NNext where
  | fall (pc : Nat)
  | nhalted (pc : Nat)
deriving DecidableEq, Repr

/-- Outcome of executing one compiled block natively: normal completion,
a guard side exit restoring exact interpreter state (spec §6), or an
internal fault (never reached from states matching the context). -/
inductive NOut where
  | ok (stack : List Val) (out : List Val) (nxt : NNext)
  | sideExit (pc : Nat) (stack : List Val) (out : List Val)
  | nerror
deriving DecidableEq, Repr

/-- Modelled from the spec (§4.4, §6): execution of a compiled block's
abstract instruction sequence.  `endPos` is the block's end bytecode
position, reached on fall-through past the last instruction. -/
def runN (endPos : Nat) : List NInsn → List Val → List Val → NOut
  | [], stack, out => NOut.ok stack out (NNext.fall endPos)
  | NInsn.npushc v :: rest, stack, out => runN endPos rest (v :: stack) out
  | NInsn.naddInt :: rest, stack, out =>
    match stack with
    | Val.int a :: Val.int b :: s => runN endPos rest (Val.int (a + b) :: s) out
    | _ => NOut.nerror
  | NInsn.nguardInts dp :: rest, stack, out =>
    match stack with
    | Val.int _ :: Val.int _ :: _ => runN endPos rest stack out
    | _ => NOut.sideExit dp stack out
  | NInsn.nprintv :: rest, stack, out =>
    match stack with
    | v :: s => runN endPos rest s (out ++ [v])
    | [] => NOut.nerror
  | NInsn.njz t fp :: _, stack, out =>
    match stack with
    | v :: s => NOut.ok s out (NNext.fall (if falsy v then t else fp))
    | [] => NOut.nerror
  | NInsn.nhalt hp :: _, stack, out => NOut.ok stack out (NNext.nhalted hp)

/-- Does a runtime value satisfy a type estimate? (spec §3: estimates
describe the speculative type state; `unknown` matches everything.) -/
def estMatches : TypeEst → Val → Bool
  | TypeEst.unknown, _ => true
  | TypeEst.tint, Val.int _ => true
  | TypeEst.ttrue, Val.vtrue => true
  | TypeEst.tfalse, Val.vfalse => true
  | TypeEst.tnil, Val.vnil => true
  | _, _ => false

/-- The precise estimate of a known pushed value. -/
def estOf : Val → TypeEst
  | Val.int _ => TypeEst.tint
  | Val.vtrue => TypeEst.ttrue
  | Val.vfalse => TypeEst.tfalse
  | Val.vnil => TypeEst.tnil

/-- A runtime operand stack matches a list of slot estimates pointwise. -/
def stackMatches : List Val → List TypeEst → Bool
  | [], [] => true
  | v :: s, e :: c => estMatches e v && stackMatches s c
  | _, _ => false

/-- Modelled from the spec (§4.4): translate one bytecode instruction,
given the tracked slot estimates, into abstract instructions.  Returns
the emitted instructions, the updated estimates, and whether the block
ends here (control transfer).  `none` means the instruction cannot be
specialized (spec §7 UnsupportedInstruction).  `add` on two slots known
to be integers is emitted unguarded; otherwise a type guard is emitted
that side-exits to the interpreter at this exact position. -/
def genInsn (i : Insn) (pc : Nat) (ctx : List TypeEst) :
    Option (List NInsn × List TypeEst × Bool) :=
  match i with
  | Insn.push v => some ([NInsn.npushc v], estOf v :: ctx, false)
  | Insn.add =>
    match ctx with
    | e1 :: e2 :: rest =>
        if e1 = TypeEst.tint ∧ e2 = TypeEst.tint then
          some ([NInsn.naddInt], TypeEst.tint :: rest, false)
        else
          some ([NInsn.nguardInts pc, NInsn.naddInt], TypeEst.tint :: rest, false)
    | _ => none
  | Insn.extprint =>
    match ctx with
    | _ :: rest => some ([NInsn.nprintv], rest, false)
    | [] => none
  | Insn.jz t =>
    match ctx with
    | _ :: rest => some ([NInsn.njz t (pc + 1)], rest, true)
    | [] => none
  | Insn.halt => some ([NInsn.nhalt pc], ctx, true)
  | Insn.mystery => none

/-- Modelled from the spec (§4.4): emit code for consecutive bytecode
instructions starting at `pc` until the block naturally ends — a control
transfer, an instruction that cannot be specialized (block ends before
it), or the end of the program.  Returns the instruction sequence and the
end bytecode position (exclusive). -/
def genBlock (prog : List Insn) : Nat → Nat → List TypeEst → List NInsn × Nat
  | 0, pc, _ => ([], pc)
  | fuel + 1, pc, ctx =>
    match prog[pc]? with
    | none => ([], pc)
    | some i =>
      match genInsn i pc ctx with
      | none => ([], pc)
      | some (ins, _, true) => (ins, pc + 1)
      | some (ins, ctx2, false) =>
        let r := genBlock prog fuel (pc + 1) ctx2
        (ins ++ r.1, r.2)

/-- A compiled block's code: abstract instructions plus the end position
(spec §3, Block attributes). -/
structure CodeBlk where
  insns : List NInsn
  endPos : Nat
deriving DecidableEq, Repr

/-- Modelled from the spec (§4.2 `compile_block`, §4.4): compile one block
at (position, slot estimates).  Fails (returns none) when nothing can be
emitted — the first instruction is unsupported or out of range — in which
case the site stays interpretable. -/
def compileBlockCode (prog : List Insn) (pc : Nat) (ctx : List TypeEst) :
    Option CodeBlk :=
  match genBlock prog (prog.length + 1) pc ctx with
  | ([], _) => none
  | (ins, e) => some { insns := ins, endPos := e }

/-!  The compilation driver (spec §4.5): on trampoline entry, derive the
context from the actual runtime stack, look the block up, compile it if
absent, and execute; guard failures side-exit and resume interpretation
at the exact bytecode position.  The module `yjit` (entry points) is
absent; modelled from the spec. -/

/-- Modelled from the spec (§4.5): derive a context from the actual
runtime stack state at trampoline entry — only the stack depth is known;
every slot estimate starts unknown and is narrowed by guards. -/
def deriveCtx (stack : List Val) : List TypeEst :=
  stack.map (fun _ => TypeEst.unknown)

/-- Lookup in the driver's block cache, keyed by (position, context). -/
def cacheFind : List ((Nat × List TypeEst) × CodeBlk) → Nat → List TypeEst →
    Option CodeBlk
  | [], _, _ => none
  | (key, blk) :: rest, pc, ctx =>
    if key = (pc, ctx) then some blk else cacheFind rest pc ctx

/-- JIT execution state: the population of compiled blocks keyed by
(position, context), plus the interpreter-visible machine state. -/
structure JState where
  cache : List ((Nat × List TypeEst) × CodeBlk)
  istate : IState
deriving DecidableEq, Repr

/-- Modelled from the spec (§4.4, §6, §7): run one compiled block
natively.  Side exits restore interpreter-visible state exactly and
resume interpretation at the recorded position.  An internal fault
(`nerror`, never reached from a matching context) discards the entire
compiled-code population and continues purely interpreted (spec §7,
InternalInconsistency). -/
def execBlk (prog : List Insn) (blk : CodeBlk) (js : JState) : JState :=
  match runN blk.endPos blk.insns js.istate.stack js.istate.out with
  | NOut.ok stack2 out2 (NNext.fall p) =>
      { js with istate := { pc := p, stack := stack2, out := out2, status := Status.running } }
  | NOut.ok stack2 out2 (NNext.nhalted hp) =>
      { js with istate := { pc := hp, stack := stack2, out := out2, status := Status.halted } }
  | NOut.sideExit p stack2 out2 =>
      { js with istate := stepI prog { pc := p, stack := stack2, out := out2, status := Status.running } }
  | NOut.nerror => { cache := [], istate := stepI prog js.istate }

/-- Modelled from the spec (§4.5): one round of JIT-enabled execution.
At the current position, derive the context, look up or compile the
block, then execute it natively; if compilation fails the instruction is
simply interpreted (spec §4.2, §7: the site stays interpretable). -/
def jitStep (prog : List Insn) (js : JState) : JState :=
  match js.istate.status with
  | Status.running =>
    match cacheFind js.cache js.istate.pc (deriveCtx js.istate.stack) with
    | some blk => execBlk prog blk js
    | none =>
      match compileBlockCode prog js.istate.pc (deriveCtx js.istate.stack) with
      | none => { js with istate := stepI prog js.istate }
      | some blk =>
          execBlk prog blk
            { js with cache := ((js.istate.pc, deriveCtx js.istate.stack), blk) :: js.cache }
  | _ => js

/-- JIT-enabled execution for a given number of rounds. -/
def runJit (prog : List Insn) : Nat → JState → JState
  | 0, js => js
  | n + 1, js => runJit prog n (jitStep prog js)

/-- The initial JIT state over a given machine state: no blocks compiled. -/
def initJS (s : IState) : JState := { cache := [], istate := s }

/-- Every cached block is the code the compiler produces for its key. -/
def cacheOk (prog : List Insn) (js : JState) : Prop :=
  ∀ pc ctx blk, ((pc, ctx), blk) ∈ js.cache → compileBlockCode prog pc ctx = some blk

/-- Simulation relation between one native block outcome and interpreted
execution from the block's entry state: every outcome is an interpreter
iterate of the entry state, and a completed nonempty block took at least
one interpreter step. -/
def blockSim (prog : List Insn) (pc : Nat) (stack out : List Val) (ne : Prop) :
    NOut → Prop
  | NOut.ok stack2 out2 (NNext.fall p) =>
      ∃ k, (ne → 1 ≤ k) ∧
        runI prog k { pc := pc, stack := stack, out := out, status := Status.running } =
          { pc := p, stack := stack2, out := out2, status := Status.running }
  | NOut.ok stack2 out2 (NNext.nhalted hp) =>
      ∃ k, (ne → 1 ≤ k) ∧
        runI prog k { pc := pc, stack := stack, out := out, status := Status.running } =
          { pc := hp, stack := stack2, out := out2, status := Status.halted }
  | NOut.sideExit p stack2 out2 =>
      ∃ k, runI prog k { pc := pc, stack := stack, out := out, status := Status.running } =
        { pc := p, stack := stack2, out := out2, status := Status.running }
  | NOut.nerror => True

theorem estOf_matches (v : Val) : estMatches (estOf v) v = true := by
  cases v <;> rfl

theorem stackMatches_cons (stack : List Val) (e : TypeEst) (c : List TypeEst)
    (h : stackMatches stack (e :: c) = true) :
    ∃ v s, stack = v :: s ∧ estMatches e v = true ∧ stackMatches s c = true := by
  cases stack with
  | nil => simp [stackMatches] at h
  | cons v s =>
      have h2 : estMatches e v = true ∧ stackMatches s c = true := by
        simpa [stackMatches, Bool.and_eq_true] using h
      exact ⟨v, s, rfl, h2.1, h2.2⟩

theorem estMatches_tint (v : Val) (h : estMatches TypeEst.tint v = true) :
    ∃ n, v = Val.int n := by
  cases v with
  | int n => exact ⟨n, rfl⟩
  | vtrue => simp [estMatches] at h
  | vfalse => simp [estMatches] at h
  | vnil => simp [estMatches] at h

theorem deriveCtx_matches (stack : List Val) :
    stackMatches stack (deriveCtx stack) = true := by
  induction stack with
  | nil => rfl
  | cons v s ih => simpa [deriveCtx, stackMatches, estMatches] using ih

theorem blockSim_step (prog : List Insn) (pc pc1 : Nat) (stack stack1 out out1 : List Val)
    (ne ne1 : Prop) (o : NOut)
    (hstep : stepI prog { pc := pc, stack := stack, out := out, status := Status.running } =
      { pc := pc1, stack := stack1, out := out1, status := Status.running })
    (hsim : blockSim prog pc1 stack1 out1 ne1 o) :
    blockSim prog pc stack out ne o := by
  cases o with
  | ok stack2 out2 nxt =>
      cases nxt with
      | fall p =>
          obtain ⟨k, _, hk⟩ := hsim
          refine ⟨k + 1, fun _ => Nat.succ_le_succ (Nat.zero_le k), ?_⟩
          show runI prog k (stepI prog _) = _
          rw [hstep]
          exact hk
      | nhalted hp =>
          obtain ⟨k, _, hk⟩ := hsim
          refine ⟨k + 1, fun _ => Nat.succ_le_succ (Nat.zero_le k), ?_⟩
          show runI prog k (stepI prog _) = _
          rw [hstep]
          exact hk
  | sideExit p stack2 out2 =>
      obtain ⟨k, hk⟩ := hsim
      refine ⟨k + 1, ?_⟩
      show runI prog k (stepI prog _) = _
      rw [hstep]
      exact hk
  | nerror => trivial

/-- The central code-generator soundness lemma (spec §4.4, §6): executing
a compiled block natively from any machine state matching the compile-time
context yields exactly what interpretation of the same bytecode yields —
block completion and side exits both land on interpreter-reachable states,
and a completed nonempty block consumed at least one interpreter step. -/
theorem genBlock_sound (prog : List Insn) :
    ∀ fuel pc ctx stack out, stackMatches stack ctx = true →
    blockSim prog pc stack out ((genBlock prog fuel pc ctx).1 ≠ [])
      (runN (genBlock prog fuel pc ctx).2 (genBlock prog fuel pc ctx).1 stack out) := by
  intro fuel
  induction fuel with
  | zero =>
      intro pc ctx stack out h
      simp only [genBlock, runN, blockSim]
      exact ⟨0, fun hne => absurd rfl hne, rfl⟩
  | succ fuel ih =>
      intro pc ctx stack out h
      cases hp : prog[pc]? with
      | none =>
          simp only [genBlock, hp, runN, blockSim]
          exact ⟨0, fun hne => absurd rfl hne, rfl⟩
      | some i =>
          cases i with
          | push v =>
              have hstep : stepI prog
                  { pc := pc, stack := stack, out := out, status := Status.running } =
                  { pc := pc + 1, stack := v :: stack, out := out, status := Status.running } := by
                simp [stepI, hp]
              have hmm : stackMatches (v :: stack) (estOf v :: ctx) = true := by
                simp [stackMatches, estOf_matches, h]
              have hsim := ih (pc + 1) (estOf v :: ctx) (v :: stack) out hmm
              simp only [genBlock, hp, genInsn, List.cons_append, List.nil_append, runN]
              exact blockSim_step prog _ _ _ _ _ _ _ _ _ hstep hsim
          | add =>
              match ctx, h with
              | [], h => ?_
              | [e1], h => ?_
              | e1 :: e2 :: rest, h => ?_
              case _ =>
                cases stack with
                | nil =>
                    simp only [genBlock, hp, genInsn, runN, blockSim]
                    exact ⟨0, fun hne => absurd rfl hne, rfl⟩
                | cons a b => simp [stackMatches] at h
              case _ =>
                obtain ⟨v1, s1, hs1, hm1, hrest1⟩ := stackMatches_cons _ _ _ h
                subst hs1
                cases s1 with
                | nil =>
                    simp only [genBlock, hp, genInsn, runN, blockSim]
                    exact ⟨0, fun hne => absurd rfl hne, rfl⟩
                | cons a b => simp [stackMatches] at hrest1
              case _ =>
                obtain ⟨v1, s1, hs1, hm1, hrest1⟩ := stackMatches_cons _ _ _ h
                obtain ⟨v2, s2, hs2, hm2, hrest2⟩ := stackMatches_cons _ _ _ hrest1
                subst hs1; subst hs2
                by_cases hee : e1 = TypeEst.tint ∧ e2 = TypeEst.tint
                · obtain ⟨he1, he2⟩ := hee
                  subst he1; subst he2
                  obtain ⟨a, ha⟩ := estMatches_tint _ hm1
                  obtain ⟨b, hb⟩ := estMatches_tint _ hm2
                  subst ha; subst hb
                  have hstep : stepI prog
                      { pc := pc, stack := Val.int a :: Val.int b :: s2, out := out,
                        status := Status.running } =
                      { pc := pc + 1, stack := Val.int (a + b) :: s2, out := out,
                        status := Status.running } := by
                    simp [stepI, hp]
                  have hmm : stackMatches (Val.int (a + b) :: s2)
                      (TypeEst.tint :: rest) = true := by
                    simp [stackMatches, estMatches, hrest2]
                  have hsim := ih (pc + 1) (TypeEst.tint :: rest) (Val.int (a + b) :: s2) out hmm
                  simp only [genBlock, hp, genInsn, and_self, if_true, List.cons_append,
                    List.nil_append, runN]
                  exact blockSim_step prog _ _ _ _ _ _ _ _ _ hstep hsim
                · simp only [genBlock, hp, genInsn, hee, if_false, List.cons_append,
                    List.nil_append]
                  cases v1 with
                  | int a =>
                      cases v2 with
                      | int b =>
                          have hstep : stepI prog
                              { pc := pc, stack := Val.int a :: Val.int b :: s2, out := out,
                                status := Status.running } =
                              { pc := pc + 1, stack := Val.int (a + b) :: s2, out := out,
                                status := Status.running } := by
                            simp [stepI, hp]
                          have hmm : stackMatches (Val.int (a + b) :: s2)
                              (TypeEst.tint :: rest) = true := by
                            simp [stackMatches, estMatches, hrest2]
                          have hsim := ih (pc + 1) (TypeEst.tint :: rest)
                            (Val.int (a + b) :: s2) out hmm
                          simp only [runN]
                          exact blockSim_step prog _ _ _ _ _ _ _ _ _ hstep hsim
                      | vtrue => exact ⟨0, rfl⟩
                      | vfalse => exact ⟨0, rfl⟩
                      | vnil => exact ⟨0, rfl⟩
                  | vtrue => exact ⟨0, rfl⟩
                  | vfalse => exact ⟨0, rfl⟩
                  | vnil => exact ⟨0, rfl⟩
          | extprint =>
              cases ctx with
              | nil =>
                  cases stack with
                  | nil =>
                      simp only [genBlock, hp, genInsn, runN, blockSim]
                      exact ⟨0, fun hne => absurd rfl hne, rfl⟩
                  | cons a b => simp [stackMatches] at h
              | cons e rest =>
                  obtain ⟨v, s, hs, hm, hrest⟩ := stackMatches_cons _ _ _ h
                  subst hs
                  have hstep : stepI prog
                      { pc := pc, stack := v :: s, out := out, status := Status.running } =
                      { pc := pc + 1, stack := s, out := out ++ [v],
                        status := Status.running } := by
                    simp [stepI, hp]
                  have hsim := ih (pc + 1) rest s (out ++ [v]) hrest
                  simp only [genBlock, hp, genInsn, List.cons_append, List.nil_append, runN]
                  exact blockSim_step prog _ _ _ _ _ _ _ _ _ hstep hsim
          | jz t =>
              cases ctx with
              | nil =>
                  cases stack with
                  | nil =>
                      simp only [genBlock, hp, genInsn, runN, blockSim]
                      exact ⟨0, fun hne => absurd rfl hne, rfl⟩
                  | cons a b => simp [stackMatches] at h
              | cons e rest =>
                  obtain ⟨v, s, hs, hm, hrest⟩ := stackMatches_cons _ _ _ h
                  subst hs
                  simp only [genBlock, hp, genInsn, runN, blockSim]
                  refine ⟨1, fun _ => Nat.le_refl 1, ?_⟩
                  rw [runI_one]
                  simp [stepI, hp]
          | halt =>
              simp only [genBlock, hp, genInsn, runN, blockSim]
              refine ⟨1, fun _ => Nat.le_refl 1, ?_⟩
              rw [runI_one]
              simp [stepI, hp]
          | mystery =>
              simp only [genBlock, hp, genInsn, runN, blockSim]
              exact ⟨0, fun hne => absurd rfl hne, rfl⟩

theorem cacheFind_mem (cache : List ((Nat × List TypeEst) × CodeBlk)) (pc : Nat)
    (ctx : List TypeEst) (blk : CodeBlk) (h : cacheFind cache pc ctx = some blk) :
    ((pc, ctx), blk) ∈ cache := by
  induction cache with
  | nil => simp [cacheFind] at h
  | cons e rest ih =>
      obtain ⟨key, b⟩ := e
      by_cases hk : key = (pc, ctx)
      · subst hk
        simp [cacheFind] at h
        subst h
        exact List.mem_cons_self _ _
      · simp [cacheFind, hk] at h
        exact List.mem_cons_of_mem _ (ih h)

/-- Executing one compiled block produced by the compiler advances the
machine state by at least one interpreter step and lands exactly on an
interpreter iterate of the entry state. -/
theorem execBlk_sound (prog : List Insn) (blk : CodeBlk)
    (cache0 : List ((Nat × List TypeEst) × CodeBlk)) (pc0 : Nat)
    (stack0 out0 : List Val)
    (hcomp : compileBlockCode prog pc0 (deriveCtx stack0) = some blk) :
    ∃ k, 1 ≤ k ∧
      (execBlk prog blk
          { cache := cache0,
            istate := { pc := pc0, stack := stack0, out := out0, status := Status.running } }).istate =
        runI prog k { pc := pc0, stack := stack0, out := out0, status := Status.running } := by
  have hsound := genBlock_sound prog (prog.length + 1) pc0 (deriveCtx stack0) stack0 out0
    (deriveCtx_matches stack0)
  cases hgb : genBlock prog (prog.length + 1) pc0 (deriveCtx stack0) with
  | mk ins e =>
      rw [hgb] at hsound
      cases ins with
      | nil => simp [compileBlockCode, hgb] at hcomp
      | cons i0 insr =>
          simp only [compileBlockCode, hgb] at hcomp
          have hblk : blk = { insns := i0 :: insr, endPos := e } := by
            cases hcomp
            rfl
          subst hblk
          simp only [execBlk]
          cases hout : runN e (i0 :: insr) stack0 out0 with
          | ok stack2 out2 nxt =>
              rw [hout] at hsound
              cases nxt with
              | fall p =>
                  obtain ⟨k, hk1, hk2⟩ := hsound
                  exact ⟨k, hk1 (List.cons_ne_nil i0 insr), hk2.symm⟩
              | nhalted hp =>
                  obtain ⟨k, hk1, hk2⟩ := hsound
                  exact ⟨k, hk1 (List.cons_ne_nil i0 insr), hk2.symm⟩
          | sideExit p stack2 out2 =>
              rw [hout] at hsound
              obtain ⟨k, hk⟩ := hsound
              refine ⟨1 + k, Nat.le_add_right 1 k, ?_⟩
              rw [runI_add prog k 1, hk, runI_one]
          | nerror =>
              exact ⟨1, Nat.le_refl 1, by rw [runI_one]⟩

/-- One round of the JIT driver advances the machine state by at least
one interpreter step, landing exactly on an interpreter iterate. -/
theorem jitStep_sound (prog : List Insn) (js : JState)
    (hrun : js.istate.status = Status.running) (hc : cacheOk prog js) :
    ∃ k, 1 ≤ k ∧ (jitStep prog js).istate = runI prog k js.istate := by
  obtain ⟨cache0, pc0, stack0, out0, st0⟩ := js
  simp only at hrun
  subst hrun
  cases hfind : cacheFind cache0 pc0 (deriveCtx stack0) with
  | some blk =>
      have hcomp : compileBlockCode prog pc0 (deriveCtx stack0) = some blk :=
        hc pc0 (deriveCtx stack0) blk (cacheFind_mem _ _ _ _ hfind)
      have hjit : jitStep prog
          { cache := cache0,
            istate := { pc := pc0, stack := stack0, out := out0, status := Status.running } } =
          execBlk prog blk
            { cache := cache0,
              istate := { pc := pc0, stack := stack0, out := out0, status := Status.running } } := by
        simp [jitStep, hfind]
      rw [hjit]
      exact execBlk_sound prog blk cache0 pc0 stack0 out0 hcomp
  | none =>
      cases hcomp : compileBlockCode prog pc0 (deriveCtx stack0) with
      | none =>
          have hjit : jitStep prog
              { cache := cache0,
                istate := { pc := pc0, stack := stack0, out := out0, status := Status.running } } =
              { cache := cache0,
                istate := stepI prog { pc := pc0, stack := stack0, out := out0, status := Status.running } } := by
            simp [jitStep, hfind, hcomp]
          rw [hjit]
          exact ⟨1, Nat.le_refl 1, by rw [runI_one]⟩
      | some blk =>
          have hjit : jitStep prog
              { cache := cache0,
                istate := { pc := pc0, stack := stack0, out := out0, status := Status.running } } =
              execBlk prog blk
                { cache := ((pc0, deriveCtx stack0), blk) :: cache0,
                  istate := { pc := pc0, stack := stack0, out := out0, status := Status.running } } := by
            simp [jitStep, hfind, hcomp]
          rw [hjit]
          exact execBlk_sound prog blk _ pc0 stack0 out0 hcomp

/-- A round of the driver on a finished (halted or errored) state changes
nothing. -/
theorem jitStep_fix (prog : List Insn) (js : JState)
    (h : js.istate.status ≠ Status.running) : jitStep prog js = js := by
  unfold jitStep
  cases hs : js.istate.status with
  | running => exact absurd hs h
  | halted => rfl
  | errored => rfl

/-- The driver only caches code the compiler produced for that key. -/
theorem jitStep_cacheOk (prog : List Insn) (js : JState) (hc : cacheOk prog js) :
    cacheOk prog (jitStep prog js) := by
  obtain ⟨cache0, pc0, stack0, out0, st0⟩ := js
  cases st0 with
  | running =>
      cases hfind : cacheFind cache0 pc0 (deriveCtx stack0) with
      | some blk =>
          have hjit : jitStep prog
              { cache := cache0,
                istate := { pc := pc0, stack := stack0, out := out0, status := Status.running } } =
              execBlk prog blk
                { cache := cache0,
                  istate := { pc := pc0, stack := stack0, out := out0, status := Status.running } } := by
            simp [jitStep, hfind]
          rw [hjit]
          unfold execBlk
          cases hout : runN blk.endPos blk.insns stack0 out0 with
          | ok stack2 out2 nxt =>
              cases nxt with
              | fall p => exact hc
              | nhalted hp => exact hc
          | sideExit p stack2 out2 => exact hc
          | nerror => intro pc ctx b hmem; simp at hmem
      | none =>
          cases hcomp : compileBlockCode prog pc0 (deriveCtx stack0) with
          | none =>
              have hjit : jitStep prog
                  { cache := cache0,
                    istate := { pc := pc0, stack := stack0, out := out0, status := Status.running } } =
                  { cache := cache0,
                    istate := stepI prog { pc := pc0, stack := stack0, out := out0, status := Status.running } } := by
                simp [jitStep, hfind, hcomp]
              rw [hjit]
              exact hc
          | some blk =>
              have hjit : jitStep prog
                  { cache := cache0,
                    istate := { pc := pc0, stack := stack0, out := out0, status := Status.running } } =
                  execBlk prog blk
                    { cache := ((pc0, deriveCtx stack0), blk) :: cache0,
                      istate := { pc := pc0, stack := stack0, out := out0, status := Status.running } } := by
                simp [jitStep, hfind, hcomp]
              rw [hjit]
              have hc2 : cacheOk prog
                  { cache := ((pc0, deriveCtx stack0), blk) :: cache0,
                    istate := { pc := pc0, stack := stack0, out := out0, status := Status.running } } := by
                intro pc ctx b hmem
                cases hmem with
                | head => exact hcomp
                | tail _ hmem2 => exact hc pc ctx b hmem2
              unfold execBlk
              cases hout : runN blk.endPos blk.insns stack0 out0 with
              | ok stack2 out2 nxt =>
                  cases nxt with
                  | fall p => exact hc2
                  | nhalted hp => exact hc2
              | sideExit p stack2 out2 => exact hc2
              | nerror => intro pc ctx b hmem; simp at hmem
  | halted =>
      rw [jitStep_fix prog _ (by intro hx; exact Status.noConfusion hx)]
      exact hc
  | errored =>
      rw [jitStep_fix prog _ (by intro hx; exact Status.noConfusion hx)]
      exact hc

/-- JIT execution is a stuttering-free simulation of interpretation:
after any number of driver rounds from a well-formed JIT state, the
machine state is exactly an interpreter iterate of the start state, at
least as far along as the number of rounds. -/
theorem runJit_sim (prog : List Insn) :
    ∀ fuel js, cacheOk prog js →
      ∃ k, fuel ≤ k ∧ (runJit prog fuel js).istate = runI prog k js.istate := by
  intro fuel
  induction fuel with
  | zero => intro js _; exact ⟨0, Nat.le_refl 0, rfl⟩
  | succ fuel ih =>
      intro js hc
      by_cases hrun : js.istate.status = Status.running
      · obtain ⟨k1, hk1, hs1⟩ := jitStep_sound prog js hrun hc
        obtain ⟨k2, hk2, hs2⟩ := ih (jitStep prog js) (jitStep_cacheOk prog js hc)
        refine ⟨k2 + k1, ?_, ?_⟩
        · have := Nat.add_le_add hk2 hk1
          omega
        · show (runJit prog fuel (jitStep prog js)).istate = _
          rw [hs2, hs1, ← runI_add]
      · obtain ⟨k2, hk2, hs2⟩ := ih (jitStep prog js) (jitStep_cacheOk prog js hc)
        rw [jitStep_fix prog js hrun] at hs2
        refine ⟨fuel + 1, Nat.le_refl _, ?_⟩
        show (runJit prog fuel (jitStep prog js)).istate = _
        rw [jitStep_fix prog js hrun, hs2, runI_fix prog js.istate hrun k2,
          runI_fix prog js.istate hrun (fuel + 1)]

/-- C1: For every bytecode program P and every input (start state),
executing P fully interpreted and executing P with the JIT enabled
produce identical observable results and identical externally visible
side effects (printed output, exceptions raised, mutation order): every
JIT-reached machine state is exactly an interpreter-reached state, and
whenever interpretation finishes (halts or raises), JIT execution given
as many rounds finishes in the identical state — same output, same
status, same stack.  Failures inside the JIT (unsupported instruction,
compile failure, internal fault) only slow execution down, never change
behavior, since those paths fall back to the interpreter inside the same
simulation. -/
theorem claim_C1 (prog : List Insn) (s0 : IState) :
    (∀ fuel, ∃ k, fuel ≤ k ∧ (runJit prog fuel (initJS s0)).istate = runI prog k s0) ∧
    (∀ n fuel, (runI prog n s0).status ≠ Status.running → n ≤ fuel →
      (runJit prog fuel (initJS s0)).istate = runI prog n s0) := by
  have hc : cacheOk prog (initJS s0) := by
    intro pc ctx blk hmem
    simp [initJS] at hmem
  constructor
  · intro fuel
    exact runJit_sim prog fuel (initJS s0) hc
  · intro n fuel hterm hle
    obtain ⟨k, hk, hs⟩ := runJit_sim prog fuel (initJS s0) hc
    have hnk : n ≤ k := le_trans hle hk
    have hcollapse : runI prog k s0 = runI prog n s0 := by
      have hsplit : k = (k - n) + n := (Nat.sub_add_cancel hnk).symm
      rw [hsplit, runI_add prog n (k - n)]
      exact runI_fix prog (runI prog n s0) hterm (k - n)
    rw [hs]
    exact hcollapse

/-- A sample program: print (1 + 2), then halt. -/
def progEx : List Insn :=
  [Insn.push (Val.int 1), Insn.push (Val.int 2), Insn.add, Insn.extprint, Insn.halt]

/-- The empty-stack entry state. -/
def s0Ex : IState := { pc := 0, stack := [], out := [], status := Status.running }

theorem claim_C1_witness :
    (runI progEx 5 s0Ex).status ≠ Status.running ∧
    (runJit progEx 5 (initJS s0Ex)).istate = runI progEx 5 s0Ex ∧
    (runI progEx 5 s0Ex).out = [Val.int 3] := by
  refine ⟨by decide, (claim_C1 progEx s0Ex).2 5 5 (by decide) (by decide), by decide⟩

/-- C4: For every context and every sequence of narrow operations, the
context's chain depth never exceeds the configured maximum; and once a
slot is at the maximum chain depth, a further narrowing request on it
yields the "unknown" estimate instead of producing a deeper chain. -/
theorem claim_C4 (maxChain : Nat) :
    (∀ ops entry, (applyNarrows maxChain ops (initial entry)).chainDepth ≤ maxChain) ∧
    (∀ c slot t, c.chainDepth ≤ maxChain →
      (narrow maxChain c slot t).chainDepth ≤ maxChain) ∧
    (∀ c slot t, c.chainDepth = maxChain → slot < c.slots.length →
      (narrow maxChain c slot t).slots[slot]? = some TypeEst.unknown ∧
      (narrow maxChain c slot t).chainDepth = c.chainDepth) := by
  have hstep : ∀ c slot t, Context.chainDepth c ≤ maxChain →
      (narrow maxChain c slot t).chainDepth ≤ maxChain := by
    intro c slot t hc
    unfold narrow
    by_cases hlt : c.chainDepth < maxChain
    · simp only [hlt, if_true]
      exact hlt
    · simp only [hlt, if_false]
      exact hc
  refine ⟨?_, hstep, ?_⟩
  · intro ops entry
    have hgen : ∀ (l : List (Nat × TypeEst)) (c : Context),
        c.chainDepth ≤ maxChain →
        (applyNarrows maxChain l c).chainDepth ≤ maxChain := by
      intro l
      induction l with
      | nil => intro c hc; exact hc
      | cons op rest ih =>
          intro c hc
          exact ih (narrow maxChain c op.1 op.2) (hstep c op.1 op.2 hc)
    exact hgen ops (initial entry) (Nat.zero_le maxChain)
  · intro c slot t hmax hslot
    have hnot : ¬ c.chainDepth < maxChain := by omega
    unfold narrow
    simp only [hnot, if_false]
    exact ⟨List.getElem?_set_self hslot, trivial⟩

/-- Concrete context at the maximum chain depth for the C4 witness. -/
def ctxAtMax : Context := narrow 1 (initial 1) 0 TypeEst.tint

theorem claim_C4_witness :
    ctxAtMax.chainDepth = 1 ∧ 0 < ctxAtMax.slots.length ∧
    (narrow 1 ctxAtMax 0 (TypeEst.theap 3)).slots[0]? = some TypeEst.unknown ∧
    (narrow 1 ctxAtMax 0 (TypeEst.theap 3)).chainDepth = ctxAtMax.chainDepth := by
  have h := (claim_C4 1).2.2 ctxAtMax 0 (TypeEst.theap 3) (by decide) (by decide)
  exact ⟨by decide, by decide, h.1, h.2⟩

/-- C6: Contexts are immutable: narrowing allocates a new context at a
fresh handle and the original arena entry — hence every one of its
fields (stack depth, slot estimates, self-type estimate, chain depth) —
is unchanged; and contexts are compared by structural equality. -/
theorem claim_C6 (maxChain : Nat) :
    (∀ (store : List Context) (i slot : Nat) (t : TypeEst), i < store.length →
      ((narrowAt maxChain store i slot t).1)[i]? = store[i]? ∧
      (narrowAt maxChain store i slot t).2 = store.length ∧
      (narrowAt maxChain store i slot t).2 ≠ i ∧
      ((narrowAt maxChain store i slot t).1).length = store.length + 1) ∧
    (∀ c1 c2 : Context,
      c1 = c2 ↔ c1.slots = c2.slots ∧ c1.selfEst = c2.selfEst ∧
        c1.chainDepth = c2.chainDepth) := by
  constructor
  · intro store i slot t hi
    have hget : store[i]? = some store[i] :=
      List.getElem?_eq_some_iff.mpr ⟨hi, rfl⟩
    unfold narrowAt
    rw [hget]
    refine ⟨?_, rfl, ?_, ?_⟩
    · rw [List.getElem?_append_left hi, hget]
    · exact Nat.ne_of_gt hi
    · simp
  · intro c1 c2
    constructor
    · intro h
      subst h
      exact ⟨rfl, rfl, rfl⟩
    · intro ⟨h1, h2, h3⟩
      cases c1
      cases c2
      simp only at h1 h2 h3
      subst h1; subst h2; subst h3
      rfl

theorem claim_C6_witness :
    ((narrowAt 2 [initial 2] 0 1 TypeEst.tint).1)[0]? = some (initial 2) ∧
    (narrowAt 2 [initial 2] 0 1 TypeEst.tint).2 = 1 ∧
    ((narrowAt 2 [initial 2] 0 1 TypeEst.tint).1).length = 2 := by
  have h := (claim_C6 2).1 [initial 2] 0 1 TypeEst.tint (by decide)
  exact ⟨h.1, h.2.1, h.2.2.2⟩

/-!  The per-block compilation state machine (spec §4.4).  The module
`codegen` is absent, so the machine is modelled from the spec:
`Start → Emitting → {Ended-Normal, Ended-Guard-Exit, Ended-Unsupported}
→ Published`. -/

/-- Modelled from the spec (§4.4): the states a block compilation passes
through. -/
inductive CompState where
  | start
  | emitting
  | endedNormal
  | endedGuardExit
  | endedUnsupported
  | published
deriving DecidableEq, Repr

/-- Modelled from the spec (§4.4): the allowed transitions.  Emission is
append-only (`appendInsn` stays in `Emitting`); each terminal state may
only move on to `Published`. -/
inductive compStep : CompState → CompState → Prop where
  | beginEmit : compStep CompState.start CompState.emitting
  | appendInsn : compStep CompState.emitting CompState.emitting
  | endNormal : compStep CompState.emitting CompState.endedNormal
  | endGuard : compStep CompState.emitting CompState.endedGuardExit
  | endUnsupported : compStep CompState.emitting CompState.endedUnsupported
  | publishNormal : compStep CompState.endedNormal CompState.published
  | publishGuard : compStep CompState.endedGuardExit CompState.published
  | publishUnsupported : compStep CompState.endedUnsupported CompState.published

/-- Reflexive-transitive closure of `compStep`. -/
inductive compSteps : CompState → CompState → Prop where
  | refl (s : CompState) : compSteps s s
  | tail {s t u : CompState} : compSteps s t → compStep t u → compSteps s u

/-- A terminal state of the compilation state machine (spec §4.4). -/
def isTerminal (s : CompState) : Prop :=
  s = CompState.endedNormal ∨ s = CompState.endedGuardExit ∨
    s = CompState.endedUnsupported ∨ s = CompState.published

/-!  The block/branch graph (spec §3, §4.2, §4.3, §9).  The modules
`core` and `invariants` are absent from the tree, so the graph, the
invariant registry and their operations are modelled from the spec.
Blocks and branches live in arenas addressed by stable integer handles
(spec §9). -/

/-- Address of the generic interpreter re-entry / generic-dispatch stub
(spec §4.2); block code addresses start above it. -/
def genericStubAddr : Nat := 0

/-- Modelled from the spec (§3, Block): identity (bytecode start
position, context), code address, end position, branch lists, assumption
dependencies and the invalidated flag. -/
structure Block where
  pos : Nat
  ctx : Context
  addr : Nat
  endPos : Nat
  outgoing : List Nat
  incoming : List Nat
  deps : List Nat
  invalidated : Bool
deriving DecidableEq, Repr

/-- Modelled from the spec (§4.2): once a block is invalidated its entry
is rewritten to redirect to the generic interpreter re-entry stub, so a
jump to its address safely degrades to interpretation. -/
def entryTarget (blk : Block) : Nat :=
  if blk.invalidated then genericStubAddr else blk.addr

/-- Modelled from the spec (§3, Branch): pending or resolved. -/
inductive BranchState where
  | pending
  | resolved
deriving DecidableEq, Repr

/-- Modelled from the spec (§3, Branch): a directed edge to a target
(position, context); records the patched machine bytes (as the address
they jump to), the small table of resolved targets for polymorphic
sites, and whether the branch fell back to the generic dispatch stub. -/
structure Branch where
  srcBlock : Option Nat
  targetPos : Nat
  targetCtx : Context
  state : BranchState
  patchedAddr : Option Nat
  resolvedTargets : List Nat
  genericDispatch : Bool
deriving DecidableEq, Repr

/-- Modelled from the spec (§4.2, §4.3, §9): the block/branch graph with
its identity index, recorded pending stubs, and the invariant registry
mapping assumption keys to dependent block handles. -/
structure Graph where
  blocks : List Block
  branches : List Branch
  index : List ((Nat × Context) × Nat)
  stubs : List (Nat × Context)
  registry : List (Nat × Nat)
  nextAddr : Nat
deriving DecidableEq, Repr

/-- The empty graph: nothing compiled, nothing assumed. -/
def emptyGraph : Graph :=
  { blocks := [], branches := [], index := [], stubs := [], registry := [],
    nextAddr := genericStubAddr + 1 }

/-- Identity lookup in the graph's index (exact match on (position,
context), spec §4.2). -/
def lookupIndex : List ((Nat × Context) × Nat) → Nat → Context → Option Nat
  | [], _, _ => none
  | (key, bid) :: rest, pos, ctx =>
    if key = (pos, ctx) then some bid else lookupIndex rest pos ctx

/-- Result of `find_or_stub` (spec §4.2): either an existing block or a
pending stub referencing (position, context). -/
inductive LookupResult where
  | foundBlock (bid : Nat)
  | stub (pos : Nat) (ctx : Context)
deriving DecidableEq, Repr

/-- Modelled from the spec (§4.2): `find_or_stub(position, context)` —
returns an existing block if one with exactly this identity exists;
otherwise returns a pending stub referencing (position, context) and
records it for later resolution.  Never compiles. -/
def find_or_stub (g : Graph) (pos : Nat) (ctx : Context) : LookupResult × Graph :=
  match lookupIndex g.index pos ctx with
  | some bid => (LookupResult.foundBlock bid, g)
  | none =>
      (LookupResult.stub pos ctx,
        if (pos, ctx) ∈ g.stubs then g
        else { g with stubs := (pos, ctx) :: g.stubs })

/-- Modelled from the spec (§4.2, §4.4): what one successful code
generation pass yields — the block's end position, the targets of its
outgoing branches (all created pending) and the assumption keys the
emitted code depends on.  Compilation failure is `none`. -/
structure EmitUnit where
  endPos : Nat
  outTargets : List (Nat × Context)
  deps : List Nat
deriving DecidableEq, Repr

/-- A freshly created pending branch out of block `src` (spec §3). -/
def mkPendingBranch (src : Nat) (t : Nat × Context) : Branch :=
  { srcBlock := some src, targetPos := t.1, targetCtx := t.2,
    state := BranchState.pending, patchedAddr := none,
    resolvedTargets := [], genericDispatch := false }

/-- The block record publication creates for (pos, ctx) from a finished
emission (spec §3, §4.2). -/
def mkBlock (g : Graph) (pos : Nat) (ctx : Context) (u : EmitUnit) : Block :=
  { pos := pos, ctx := ctx, addr := g.nextAddr, endPos := u.endPos,
    outgoing := (List.range u.outTargets.length).map (fun i => g.branches.length + i),
    incoming := [], deps := u.deps, invalidated := false }

/-- Modelled from the spec (§4.2, §5): publish a finished compilation
into the graph, first-publish-wins — if a block with this identity is
already canonical the new work is discarded and the canonical handle is
returned; otherwise the block is appended, indexed, its outgoing
branches created pending, its dependencies registered, and the recorded
stub consumed. -/
def publish (g : Graph) (pos : Nat) (ctx : Context) (u : EmitUnit) : Nat × Graph :=
  match lookupIndex g.index pos ctx with
  | some bid => (bid, g)
  | none =>
      (g.blocks.length,
        { blocks := g.blocks ++ [mkBlock g pos ctx u],
          branches := g.branches ++ u.outTargets.map (mkPendingBranch g.blocks.length),
          index := ((pos, ctx), g.blocks.length) :: g.index,
          stubs := g.stubs.filter (fun s => !decide (s = (pos, ctx))),
          registry := g.registry ++ u.deps.map (fun k2 => (k2, g.blocks.length)),
          nextAddr := g.nextAddr + 1 })

/-- Modelled from the spec (§4.2): `compile_block(position, context)` —
runs the code generator; on failure returns failure and touches nothing,
on success publishes the finished block (with its outgoing branches all
pending) into the graph keyed by its identity. -/
def compile_block (emit : Nat → Context → Option EmitUnit) (g : Graph)
    (pos : Nat) (ctx : Context) : Option (Nat × Graph) :=
  match emit pos ctx with
  | none => none
  | some u => some (publish g pos ctx u)

/-- Modelled from the spec (§4.2, §5): `resolve(branch, target_block)` —
patches the branch's recorded bytes to jump to the target block's code
address, transitions the branch to resolved, and links the target's
incoming list.  The block-invalidated flag is the single source of truth
checked at every resolve (§5), so resolving to an invalidated block is
refused.  A polymorphic branch keeps a small fixed-size table of
resolved targets and falls back to the generic dispatch stub once the
table is full (§4.2). -/
def resolve (maxT : Nat) (g : Graph) (brId bid : Nat) : Graph :=
  match g.branches[brId]?, g.blocks[bid]? with
  | some br, some blk =>
    if blk.invalidated then g
    else if br.genericDispatch then g
    else if br.resolvedTargets.length < maxT then
      let br2 : Branch :=
        { br with
          state := BranchState.resolved
          patchedAddr := some blk.addr
          resolvedTargets := bid :: br.resolvedTargets }
      let blk2 : Block := { blk with incoming := brId :: blk.incoming }
      { g with branches := g.branches.set brId br2, blocks := g.blocks.set bid blk2 }
    else
      let br3 : Branch :=
        { br with
          state := BranchState.resolved
          patchedAddr := some genericStubAddr
          genericDispatch := true }
      { g with branches := g.branches.set brId br3 }
  | _, _ => g

/-- Modelled from the spec (§4.5): when a pending branch is triggered,
the driver resolves it to whatever block the identity lookup yields. -/
def resolveStub (maxT : Nat) (g : Graph) (brId : Nat) (pos : Nat)
    (ctx : Context) : Graph :=
  match lookupIndex g.index pos ctx with
  | some bid => resolve maxT g brId bid
  | none => g

/-- Modelled from the spec (§4.2): `invalidate(block)` — marks the block
invalid (which rewrites its entry to the interpreter re-entry stub, see
`entryTarget`) and removes it from the identity index so future lookups
recompile fresh. -/
def invalidate (g : Graph) (bid : Nat) : Graph :=
  match g.blocks[bid]? with
  | none => g
  | some blk =>
      { g with
        blocks := g.blocks.set bid { blk with invalidated := true },
        index := g.index.filter (fun e => !decide (e.2 = bid)) }

/-- The handles of all blocks registered as depending on `key`
(spec §3, invariant subscription). -/
def depsOf (g : Graph) (key : Nat) : List Nat :=
  (g.registry.filter (fun e => decide (e.1 = key))).map (fun e => e.2)

/-- Modelled from the spec (§4.3): `invalidate_all(key)` — synchronously
invalidates every block registered as depending on `key`, before
returning. -/
def invalidate_all (g : Graph) (key : Nat) : Graph :=
  (depsOf g key).foldl invalidate g

/-- Modelled from the spec (§4.3): `assume(key, block)` — records the
dependency in the invariant registry. -/
def assumeDep (g : Graph) (key bid : Nat) : Graph :=
  { g with registry := (key, bid) :: g.registry }

/-- The public operations of the graph and registry (spec §4.2, §4.3),
used to characterize the reachable graph states. -/
inductive GraphOp where
  | fos (pos : Nat) (ctx : Context)
  | compileOp (pos : Nat) (ctx : Context)
  | resolveOp (brId bid : Nat)
  | invalidateAllOp (key : Nat)
  | assumeOp (key bid : Nat)
deriving DecidableEq, Repr

/-- Apply one public operation; a failed compilation leaves the graph
unchanged (spec §4.2, §5: partial work is discarded). -/
def applyOp (emit : Nat → Context → Option EmitUnit) (maxT : Nat)
    (g : Graph) : GraphOp → Graph
  | GraphOp.fos pos ctx => (find_or_stub g pos ctx).2
  | GraphOp.compileOp pos ctx =>
    match compile_block emit g pos ctx with
    | none => g
    | some r => r.2
  | GraphOp.resolveOp brId bid => resolve maxT g brId bid
  | GraphOp.invalidateAllOp key => invalidate_all g key
  | GraphOp.assumeOp key bid => assumeDep g key bid

/-- The graph reached from the empty graph by a sequence of public
operations. -/
def applyOps (emit : Nat → Context → Option EmitUnit) (maxT : Nat)
    (ops : List GraphOp) : Graph :=
  ops.foldl (applyOp emit maxT) emptyGraph

/-- C3: `find_or_stub(pos, ctx)` is idempotent — called twice with
identical arguments and no intervening invalidation it returns the same
result (the same block handle, or the same recorded stub) and leaves the
graph as the first call left it; an existing block with exactly that
identity is returned, otherwise a pending stub for (pos, ctx) is
returned and recorded. -/
theorem claim_C3 (g : Graph) (pos : Nat) (ctx : Context) :
    (find_or_stub (find_or_stub g pos ctx).2 pos ctx).1 = (find_or_stub g pos ctx).1 ∧
    (find_or_stub (find_or_stub g pos ctx).2 pos ctx).2 = (find_or_stub g pos ctx).2 ∧
    (∀ bid, lookupIndex g.index pos ctx = some bid →
      (find_or_stub g pos ctx).1 = LookupResult.foundBlock bid) ∧
    (lookupIndex g.index pos ctx = none →
      (find_or_stub g pos ctx).1 = LookupResult.stub pos ctx ∧
      (pos, ctx) ∈ ((find_or_stub g pos ctx).2).stubs) := by
  cases hl : lookupIndex g.index pos ctx with
  | some bid =>
      refine ⟨?_, ?_, ?_, ?_⟩
      · simp [find_or_stub, hl]
      · simp [find_or_stub, hl]
      · intro b hb
        cases hb
        simp [find_or_stub, hl]
      · intro hnone
        cases hnone
  | none =>
      by_cases hm : (pos, ctx) ∈ g.stubs
      · have hfs : find_or_stub g pos ctx = (LookupResult.stub pos ctx, g) := by
          simp [find_or_stub, hl, hm]
        refine ⟨?_, ?_, ?_, ?_⟩
        · rw [hfs]
          simp [find_or_stub, hl, hm]
        · rw [hfs]
          simp [find_or_stub, hl, hm]
        · intro b hb
          cases hb
        · intro _
          rw [hfs]
          exact ⟨rfl, hm⟩
      · have hfs : find_or_stub g pos ctx =
            (LookupResult.stub pos ctx, { g with stubs := (pos, ctx) :: g.stubs }) := by
          simp [find_or_stub, hl, hm]
        have hl2 : lookupIndex ({ g with stubs := (pos, ctx) :: g.stubs } : Graph).index pos ctx
            = none := hl
        have hm2 : (pos, ctx) ∈ ({ g with stubs := (pos, ctx) :: g.stubs } : Graph).stubs :=
          List.mem_cons_self _ _
        refine ⟨?_, ?_, ?_, ?_⟩
        · rw [hfs]
          simp [find_or_stub, hl2]
        · rw [hfs]
          simp [find_or_stub, hl2, hm2]
        · intro b hb
          cases hb
        · intro _
          rw [hfs]
          exact ⟨rfl, hm2⟩

theorem claim_C3_witness :
    (find_or_stub emptyGraph 0 (initial 0)).1 = LookupResult.stub 0 (initial 0) ∧
    (0, initial 0) ∈ ((find_or_stub emptyGraph 0 (initial 0)).2).stubs :=
  (claim_C3 emptyGraph 0 (initial 0)).2.2.2 rfl

/-- Modelled from the spec (§2 data flow): an emitter backed by the
concrete code generator — compile the block's abstract instructions at
the context's slot estimates; the finished block falls through to its
end position. -/
def emitOfProg (prog : List Insn) (pos : Nat) (ctx : Context) : Option EmitUnit :=
  (compileBlockCode prog pos ctx.slots).map
    (fun cb => { endPos := cb.endPos, outTargets := [(cb.endPos, ctx)], deps := [] })

/-- A program whose first instruction the code generator cannot
specialize (spec §7, UnsupportedInstruction). -/
def progMyst : List Insn := [Insn.mystery]

/-- C5: Whenever `compile_block(position, context)` fails (unsupported
instruction or resource exhaustion, modelled by the emitter returning
nothing), it returns failure, no block is published into the graph for
that identity, the triggering branch/stub remains pending and
interpretable, and no half-patched state is left behind — the graph is
exactly what it was; the partial work is simply discarded. -/
theorem claim_C5 (emit : Nat → Context → Option EmitUnit) (maxT : Nat) (g : Graph)
    (pos : Nat) (ctx : Context) (hfail : emit pos ctx = none) :
    compile_block emit g pos ctx = none ∧
    applyOp emit maxT g (GraphOp.compileOp pos ctx) = g ∧
    lookupIndex (applyOp emit maxT g (GraphOp.compileOp pos ctx)).index pos ctx =
      lookupIndex g.index pos ctx ∧
    ((pos, ctx) ∈ g.stubs →
      (pos, ctx) ∈ (applyOp emit maxT g (GraphOp.compileOp pos ctx)).stubs) := by
  have h1 : compile_block emit g pos ctx = none := by
    simp [compile_block, hfail]
  have h2 : applyOp emit maxT g (GraphOp.compileOp pos ctx) = g := by
    simp [applyOp, h1]
  refine ⟨h1, h2, ?_, ?_⟩
  · rw [h2]
  · intro hm
    rw [h2]
    exact hm

theorem claim_C5_witness :
    compile_block (emitOfProg progMyst) emptyGraph 0 (initial 0) = none ∧
    applyOp (emitOfProg progMyst) 2 emptyGraph (GraphOp.compileOp 0 (initial 0)) =
      emptyGraph := by
  have h := claim_C5 (emitOfProg progMyst) 2 emptyGraph 0 (initial 0) (by decide)
  exact ⟨h.1, h.2.1⟩

/-- Block `bid` is marked invalidated in `g`. -/
def blockDead (g : Graph) (bid : Nat) : Prop :=
  ∃ blk, g.blocks[bid]? = some blk ∧ blk.invalidated = true

/-- No identity-index entry maps to block `bid`. -/
def notInIndex (g : Graph) (bid : Nat) : Prop :=
  ∀ e ∈ g.index, e.2 ≠ bid

theorem invalidate_blocks_length (g : Graph) (b : Nat) :
    (invalidate g b).blocks.length = g.blocks.length := by
  unfold invalidate
  cases h : g.blocks[b]? with
  | none => rfl
  | some blk => simp

theorem invalidate_dead (g : Graph) (bid : Nat) (hlt : bid < g.blocks.length) :
    blockDead (invalidate g bid) bid := by
  have hget : g.blocks[bid]? = some g.blocks[bid] :=
    List.getElem?_eq_some_iff.mpr ⟨hlt, rfl⟩
  refine ⟨{ g.blocks[bid] with invalidated := true }, ?_, rfl⟩
  unfold invalidate
  rw [hget]
  exact List.getElem?_set_self hlt

theorem invalidate_preserves_dead (g : Graph) (b bid : Nat)
    (hd : blockDead g bid) : blockDead (invalidate g b) bid := by
  obtain ⟨blk, hget, hinv⟩ := hd
  unfold invalidate
  cases hb : g.blocks[b]? with
  | none => exact ⟨blk, hget, hinv⟩
  | some blk2 =>
      by_cases heq : b = bid
      · subst heq
        rw [hb] at hget
        cases hget
        refine ⟨{ blk with invalidated := true }, ?_, rfl⟩
        have hlt : b < g.blocks.length := (List.getElem?_eq_some_iff.mp hb).1
        simpa using List.getElem?_set_self hlt
      · refine ⟨blk, ?_, hinv⟩
        simpa using (List.getElem?_set_ne heq).trans hget

theorem invalidate_notInIndex (g : Graph) (bid : Nat) (hlt : bid < g.blocks.length) :
    notInIndex (invalidate g bid) bid := by
  have hget : g.blocks[bid]? = some g.blocks[bid] :=
    List.getElem?_eq_some_iff.mpr ⟨hlt, rfl⟩
  intro e he
  unfold invalidate at he
  rw [hget] at he
  simp only [List.mem_filter] at he
  intro hcontra
  have := he.2
  rw [hcontra] at this
  simp at this

theorem invalidate_preserves_notInIndex (g : Graph) (b bid : Nat)
    (hn : notInIndex g bid) : notInIndex (invalidate g b) bid := by
  intro e he
  unfold invalidate at he
  cases hb : g.blocks[b]? with
  | none =>
      rw [hb] at he
      exact hn e he
  | some blk2 =>
      rw [hb] at he
      simp only [List.mem_filter] at he
      exact hn e he.1

theorem foldl_invalidate_length : ∀ (l : List Nat) (g : Graph),
    (l.foldl invalidate g).blocks.length = g.blocks.length := by
  intro l
  induction l with
  | nil => intro g; rfl
  | cons a rest ih =>
      intro g
      show (rest.foldl invalidate (invalidate g a)).blocks.length = _
      rw [ih (invalidate g a), invalidate_blocks_length]

theorem foldl_invalidate_preserves : ∀ (l : List Nat) (g : Graph) (bid : Nat),
    (blockDead g bid → blockDead (l.foldl invalidate g) bid) ∧
    (notInIndex g bid → notInIndex (l.foldl invalidate g) bid) := by
  intro l
  induction l with
  | nil => intro g bid; exact ⟨id, id⟩
  | cons a rest ih =>
      intro g bid
      constructor
      · intro hd
        exact (ih (invalidate g a) bid).1 (invalidate_preserves_dead g a bid hd)
      · intro hn
        exact (ih (invalidate g a) bid).2 (invalidate_preserves_notInIndex g a bid hn)

theorem foldl_invalidate_hits : ∀ (l : List Nat) (g : Graph) (bid : Nat),
    bid ∈ l → bid < g.blocks.length →
    blockDead (l.foldl invalidate g) bid ∧ notInIndex (l.foldl invalidate g) bid := by
  intro l
  induction l with
  | nil =>
      intro g bid hmem
      cases hmem
  | cons a rest ih =>
      intro g bid hmem hlt
      cases hmem with
      | head =>
          constructor
          · exact (foldl_invalidate_preserves rest (invalidate g a) a).1
              (invalidate_dead g a hlt)
          · exact (foldl_invalidate_preserves rest (invalidate g a) a).2
              (invalidate_notInIndex g a hlt)
      | tail _ hmem2 =>
          have hlt2 : bid < (invalidate g a).blocks.length := by
            rw [invalidate_blocks_length]
            exact hlt
          exact ih (invalidate g a) bid hmem2 hlt2

theorem mem_depsOf (g : Graph) (key bid : Nat) (h : (key, bid) ∈ g.registry) :
    bid ∈ depsOf g key := by
  unfold depsOf
  refine List.mem_map.mpr ⟨(key, bid), ?_, rfl⟩
  refine List.mem_filter.mpr ⟨h, ?_⟩
  simp

theorem lookupIndex_ne_of_notInIndex :
    ∀ (l : List ((Nat × Context) × Nat)) (bid : Nat), (∀ e ∈ l, e.2 ≠ bid) →
    ∀ pos ctx, lookupIndex l pos ctx ≠ some bid := by
  intro l
  induction l with
  | nil =>
      intro bid _ pos ctx h
      cases h
  | cons e rest ih =>
      intro bid hall pos ctx
      obtain ⟨key, b⟩ := e
      unfold lookupIndex
      by_cases hk : key = (pos, ctx)
      · simp only [hk, if_true]
        intro hcontra
        injection hcontra with hb2
        exact hall (key, b) (List.mem_cons_self _ _) hb2
      · simp only [hk, if_false]
        exact ih bid (fun e2 he2 => hall e2 (List.mem_cons_of_mem _ he2)) pos ctx

theorem resolve_dead_noop (maxT : Nat) (g : Graph) (brId bid : Nat)
    (hd : blockDead g bid) : resolve maxT g brId bid = g := by
  obtain ⟨blk, hget, hinv⟩ := hd
  unfold resolve
  cases hbr : g.branches[brId]? with
  | none => rfl
  | some br =>
      rw [hget]
      simp [hinv]

/-- C2: For every block B that depends on assumption A (is registered
under key A), after `invalidate_all(A)` completes — a single synchronous
operation whose post-state already has every dependent invalidated — B is
marked invalidated with its entry redirected to the interpreter re-entry
stub (so every branch previously resolved to B safely resumes in the
interpreter), B is unreachable from any future `find_or_stub` call (it is
gone from the identity index), and any future `resolve` to B is refused. -/
theorem claim_C2 (g : Graph) (key bid : Nat)
    (hdep : (key, bid) ∈ g.registry) (hlt : bid < g.blocks.length) :
    (∃ blk2, (invalidate_all g key).blocks[bid]? = some blk2 ∧
      blk2.invalidated = true ∧ entryTarget blk2 = genericStubAddr) ∧
    (∀ pos ctx, lookupIndex (invalidate_all g key).index pos ctx ≠ some bid) ∧
    (∀ pos ctx, (find_or_stub (invalidate_all g key) pos ctx).1 ≠
      LookupResult.foundBlock bid) ∧
    (∀ maxT brId, resolve maxT (invalidate_all g key) brId bid =
      invalidate_all g key) := by
  have hmem : bid ∈ depsOf g key := mem_depsOf g key bid hdep
  have hhits := foldl_invalidate_hits (depsOf g key) g bid hmem hlt
  have hdead : blockDead (invalidate_all g key) bid := hhits.1
  have hnidx : notInIndex (invalidate_all g key) bid := hhits.2
  refine ⟨?_, ?_, ?_, ?_⟩
  · obtain ⟨blk2, hget, hinv⟩ := hdead
    exact ⟨blk2, hget, hinv, by unfold entryTarget; rw [hinv]; rfl⟩
  · exact fun pos ctx =>
      lookupIndex_ne_of_notInIndex (invalidate_all g key).index bid hnidx pos ctx
  · intro pos ctx
    unfold find_or_stub
    cases hl : lookupIndex (invalidate_all g key).index pos ctx with
    | none =>
        intro hcontra
        cases hcontra
    | some b =>
        have hb : b ≠ bid := fun he => by
          rw [he] at hl
          exact lookupIndex_ne_of_notInIndex (invalidate_all g key).index bid
            hnidx pos ctx hl
        intro hcontra
        exact hb (by cases hcontra; rfl)
  · exact fun maxT brId => resolve_dead_noop maxT (invalidate_all g key) brId bid hdead

/-- An emitter whose generated code depends on assumption key 7. -/
def emitDep : Nat → Context → Option EmitUnit :=
  fun _ _ => some { endPos := 1, outTargets := [], deps := [7] }

/-- A graph with one compiled block depending on key 7. -/
def gW2 : Graph := applyOps emitDep 2 [GraphOp.compileOp 0 (initial 0)]

theorem claim_C2_witness :
    (∃ blk2, (invalidate_all gW2 7).blocks[0]? = some blk2 ∧
      blk2.invalidated = true ∧ entryTarget blk2 = genericStubAddr) ∧
    (find_or_stub (invalidate_all gW2 7) 0 (initial 0)).1 ≠
      LookupResult.foundBlock 0 ∧
    resolve 2 (invalidate_all gW2 7) 0 0 = invalidate_all gW2 7 := by
  have h := claim_C2 gW2 7 0 (by decide) (by decide)
  exact ⟨h.1, h.2.2.1 0 (initial 0), h.2.2.2 2 0⟩

/-- C10: When two threads race to compile the same (position, context)
identity — each holding a privately finished compilation `uA` (published
first, in either interleaving order) and `uB` (published second) — the
graph publishes exactly one canonical block (first publish wins): the
second publish returns the canonical handle, changes nothing (the
loser's work is discarded and never linked in), the identity index maps
to the first-published block, and any branch subsequently resolved
through the driver's identity lookup is resolved only to the canonical
block.  Each publish and patch is a single atomic step of the model
(spec §5), so no torn intermediate state is observable. -/
theorem claim_C10 (g : Graph) (pos : Nat) (ctx : Context) (uA uB : EmitUnit)
    (hnone : lookupIndex g.index pos ctx = none) :
    (publish (publish g pos ctx uA).2 pos ctx uB).1 = (publish g pos ctx uA).1 ∧
    (publish (publish g pos ctx uA).2 pos ctx uB).2 = (publish g pos ctx uA).2 ∧
    lookupIndex ((publish g pos ctx uA).2).index pos ctx =
      some (publish g pos ctx uA).1 ∧
    ((publish g pos ctx uA).2).blocks[(publish g pos ctx uA).1]? =
      some (mkBlock g pos ctx uA) ∧
    (∀ maxT brId,
      resolveStub maxT (publish (publish g pos ctx uA).2 pos ctx uB).2 brId pos ctx =
        resolve maxT (publish (publish g pos ctx uA).2 pos ctx uB).2 brId
          (publish g pos ctx uA).1) := by
  have hfst : (publish g pos ctx uA).1 = g.blocks.length := by
    simp [publish, hnone]
  have hidx : ((publish g pos ctx uA).2).index =
      ((pos, ctx), g.blocks.length) :: g.index := by
    simp [publish, hnone]
  have hblocks : ((publish g pos ctx uA).2).blocks =
      g.blocks ++ [mkBlock g pos ctx uA] := by
    simp [publish, hnone]
  have hlook : lookupIndex ((publish g pos ctx uA).2).index pos ctx =
      some g.blocks.length := by
    rw [hidx]
    simp [lookupIndex]
  have hpub2 : publish (publish g pos ctx uA).2 pos ctx uB =
      (g.blocks.length, (publish g pos ctx uA).2) := by
    rw [publish.eq_def, hlook]
  refine ⟨?_, ?_, ?_, ?_, ?_⟩
  · rw [hpub2, hfst]
  · rw [hpub2]
  · rw [hlook, hfst]
  · rw [hblocks, hfst]
    exact List.getElem?_concat_length g.blocks (mkBlock g pos ctx uA)
  · intro maxT brId
    unfold resolveStub
    rw [hpub2]
    show (match lookupIndex ((publish g pos ctx uA).2).index pos ctx with
      | some bid => resolve maxT (publish g pos ctx uA).2 brId bid
      | none => (publish g pos ctx uA).2) = _
    rw [hlook, hfst]

/-- First racing thread's finished compilation for the C10 witness. -/
def uW1 : EmitUnit := { endPos := 1, outTargets := [], deps := [] }

/-- Second racing thread's finished compilation for the C10 witness. -/
def uW2 : EmitUnit := { endPos := 2, outTargets := [(2, initial 0)], deps := [4] }

theorem claim_C10_witness :
    (publish (publish emptyGraph 0 (initial 0) uW1).2 0 (initial 0) uW2).2 =
      (publish emptyGraph 0 (initial 0) uW1).2 ∧
    ((publish emptyGraph 0 (initial 0) uW1).2).blocks[(publish emptyGraph 0 (initial 0) uW1).1]? =
      some (mkBlock emptyGraph 0 (initial 0) uW1) := by
  have h := claim_C10 emptyGraph 0 (initial 0) uW1 uW2 rfl
  exact ⟨h.2.1, h.2.2.2.1⟩

theorem find_or_stub_blocks (g : Graph) (pos : Nat) (ctx : Context) :
    ((find_or_stub g pos ctx).2).blocks = g.blocks := by
  unfold find_or_stub
  cases hl : lookupIndex g.index pos ctx with
  | some bid => rfl
  | none => by_cases hm : (pos, ctx) ∈ g.stubs <;> simp [hm]

theorem find_or_stub_branches (g : Graph) (pos : Nat) (ctx : Context) :
    ((find_or_stub g pos ctx).2).branches = g.branches := by
  unfold find_or_stub
  cases hl : lookupIndex g.index pos ctx with
  | some bid => rfl
  | none => by_cases hm : (pos, ctx) ∈ g.stubs <;> simp [hm]

theorem invalidate_branches (g : Graph) (b : Nat) :
    (invalidate g b).branches = g.branches := by
  unfold invalidate
  cases h : g.blocks[b]? <;> rfl

theorem invalidate_all_branches (g : Graph) (key : Nat) :
    (invalidate_all g key).branches = g.branches := by
  unfold invalidate_all
  generalize depsOf g key = l
  induction l generalizing g with
  | nil => rfl
  | cons a rest ih =>
      show (rest.foldl invalidate (invalidate g a)).branches = _
      rw [ih (invalidate g a), invalidate_branches]

/-- The fields of a block that never change after creation: its identity
(position, context), its code address and end position, its dependency
set and its outgoing-branch list (spec §3). -/
def blockFrame (b2 b : Block) : Prop :=
  b2.pos = b.pos ∧ b2.ctx = b.ctx ∧ b2.addr = b.addr ∧ b2.endPos = b.endPos ∧
    b2.deps = b.deps ∧ b2.outgoing = b.outgoing

theorem blockFrame_refl (b : Block) : blockFrame b b :=
  ⟨rfl, rfl, rfl, rfl, rfl, rfl⟩

theorem blockFrame_trans {a b c : Block} (h1 : blockFrame a b)
    (h2 : blockFrame b c) : blockFrame a c := by
  obtain ⟨x1, x2, x3, x4, x5, x6⟩ := h1
  obtain ⟨y1, y2, y3, y4, y5, y6⟩ := h2
  exact ⟨x1.trans y1, x2.trans y2, x3.trans y3, x4.trans y4, x5.trans y5, x6.trans y6⟩

theorem invalidate_frame (g : Graph) (b bid : Nat) (blk : Block)
    (h : g.blocks[bid]? = some blk) :
    ∃ blk2, (invalidate g b).blocks[bid]? = some blk2 ∧ blockFrame blk2 blk := by
  unfold invalidate
  cases hb : g.blocks[b]? with
  | none => exact ⟨blk, h, blockFrame_refl blk⟩
  | some blkb =>
      by_cases heq : b = bid
      · subst heq
        rw [hb] at h
        cases h
        have hlt : b < g.blocks.length := (List.getElem?_eq_some_iff.mp hb).1
        exact ⟨_, List.getElem?_set_self hlt, rfl, rfl, rfl, rfl, rfl, rfl⟩
      · refine ⟨blk, ?_, blockFrame_refl blk⟩
        exact (List.getElem?_set_ne heq).trans h

theorem foldl_invalidate_frame : ∀ (l : List Nat) (g : Graph) (bid : Nat) (blk : Block),
    g.blocks[bid]? = some blk →
    ∃ blk2, (l.foldl invalidate g).blocks[bid]? = some blk2 ∧ blockFrame blk2 blk := by
  intro l
  induction l with
  | nil => intro g bid blk h; exact ⟨blk, h, blockFrame_refl blk⟩
  | cons a rest ih =>
      intro g bid blk h
      obtain ⟨blk1, h1, hf1⟩ := invalidate_frame g a bid blk h
      obtain ⟨blk2, h2, hf2⟩ := ih (invalidate g a) bid blk1 h1
      exact ⟨blk2, h2, blockFrame_trans hf2 hf1⟩

theorem resolve_frame (maxT : Nat) (g : Graph) (brId b2 bid : Nat) (blk : Block)
    (h : g.blocks[bid]? = some blk) :
    ∃ blk2, (resolve maxT g brId b2).blocks[bid]? = some blk2 ∧ blockFrame blk2 blk := by
  unfold resolve
  cases hbr : g.branches[brId]? with
  | none => exact ⟨blk, h, blockFrame_refl blk⟩
  | some br =>
      cases hbl : g.blocks[b2]? with
      | none => exact ⟨blk, h, blockFrame_refl blk⟩
      | some blkb =>
          by_cases hinv : blkb.invalidated = true
          · simp only [hinv, if_true]
            exact ⟨blk, h, blockFrame_refl blk⟩
          · simp only [hinv, if_false]
            by_cases hgen : br.genericDispatch = true
            · simp only [hgen, if_true]
              exact ⟨blk, h, blockFrame_refl blk⟩
            · simp only [hgen, if_false]
              by_cases hroom : br.resolvedTargets.length < maxT
              · simp only [hroom, if_true]
                by_cases heq : b2 = bid
                · subst heq
                  rw [hbl] at h
                  cases h
                  have hlt : b2 < g.blocks.length := (List.getElem?_eq_some_iff.mp hbl).1
                  exact ⟨_, List.getElem?_set_self hlt, rfl, rfl, rfl, rfl, rfl, rfl⟩
                · refine ⟨blk, ?_, blockFrame_refl blk⟩
                  exact (List.getElem?_set_ne heq).trans h
              · simp only [hroom, if_false]
                exact ⟨blk, h, blockFrame_refl blk⟩

/-- Every branch's table of resolved targets is within the configured
bound (spec §4.2 edge-case policy). -/
def targetsBounded (maxT : Nat) (g : Graph) : Prop :=
  ∀ br ∈ g.branches, br.resolvedTargets.length ≤ maxT

theorem targetsBounded_step (emit : Nat → Context → Option EmitUnit) (maxT : Nat)
    (g : Graph) (op : GraphOp) (h : targetsBounded maxT g) :
    targetsBounded maxT (applyOp emit maxT g op) := by
  cases op with
  | fos pos ctx =>
      intro br hbr
      have hb2 : (applyOp emit maxT g (GraphOp.fos pos ctx)).branches = g.branches :=
        find_or_stub_branches g pos ctx
      rw [hb2] at hbr
      exact h br hbr
  | compileOp pos ctx =>
      show targetsBounded maxT (match compile_block emit g pos ctx with
        | none => g
        | some r => r.2)
      cases he : emit pos ctx with
      | none => simp only [compile_block, he]; exact h
      | some u =>
          simp only [compile_block, he]
          cases hl : lookupIndex g.index pos ctx with
          | some bid => simp only [publish, hl]; exact h
          | none =>
              simp only [publish, hl]
              intro br hbr
              rcases List.mem_append.mp hbr with hold | hnew
              · exact h br hold
              · obtain ⟨t, _, rfl⟩ := List.mem_map.mp hnew
                exact Nat.zero_le maxT
  | resolveOp brId bid =>
      show targetsBounded maxT (resolve maxT g brId bid)
      unfold resolve
      cases hbr : g.branches[brId]? with
      | none => exact h
      | some br =>
          cases hbl : g.blocks[bid]? with
          | none => exact h
          | some blkb =>
              by_cases hinv : blkb.invalidated = true
              · simp only [hinv, if_true]; exact h
              · simp only [hinv, if_false]
                by_cases hgen : br.genericDispatch = true
                · simp only [hgen, if_true]; exact h
                · simp only [hgen, if_false]
                  by_cases hroom : br.resolvedTargets.length < maxT
                  · simp only [hroom, if_true]
                    intro b2 hb2
                    rcases List.mem_or_eq_of_mem_set hb2 with hold | heq
                    · exact h b2 hold
                    · subst heq
                      simpa using hroom
                  · simp only [hroom, if_false]
                    intro b2 hb2
                    rcases List.mem_or_eq_of_mem_set hb2 with hold | heq
                    · exact h b2 hold
                    · subst heq
                      exact h br (List.getElem?_mem hbr)
  | invalidateAllOp key =>
      intro br hbr
      rw [show (applyOp emit maxT g (GraphOp.invalidateAllOp key)).branches =
        g.branches from invalidate_all_branches g key] at hbr
      exact h br hbr
  | assumeOp key bid =>
      intro br hbr
      exact h br hbr

/-- C9: For every branch with multiple possible target contexts (a
polymorphic site), in every reachable graph the number of resolved
targets recorded for a branch never exceeds the fixed table size; and
once the table is full, a further resolution turns the branch into a
generic dispatch stub instead of growing the table. -/
theorem claim_C9 :
    (∀ emit maxT ops, targetsBounded maxT (applyOps emit maxT ops)) ∧
    (∀ maxT (g : Graph) (brId bid : Nat) (br : Branch) (blk : Block),
      g.branches[brId]? = some br → g.blocks[bid]? = some blk →
      blk.invalidated = false → br.genericDispatch = false →
      maxT ≤ br.resolvedTargets.length →
      ∃ br2, (resolve maxT g brId bid).branches[brId]? = some br2 ∧
        br2.genericDispatch = true ∧ br2.patchedAddr = some genericStubAddr ∧
        br2.resolvedTargets = br.resolvedTargets) := by
  constructor
  · intro emit maxT ops
    have hgen : ∀ (l : List GraphOp) (g : Graph), targetsBounded maxT g →
        targetsBounded maxT (l.foldl (applyOp emit maxT) g) := by
      intro l
      induction l with
      | nil => intro g hg; exact hg
      | cons op rest ih =>
          intro g hg
          exact ih (applyOp emit maxT g op) (targetsBounded_step emit maxT g op hg)
    exact hgen ops emptyGraph (fun br hbr => absurd hbr (List.not_mem_nil br))
  · intro maxT g brId bid br blk hbr hbl hinv hgen hfull
    have hroom : ¬ br.resolvedTargets.length < maxT := by omega
    have hlt : brId < g.branches.length := (List.getElem?_eq_some_iff.mp hbr).1
    unfold resolve
    rw [hbr, hbl]
    simp only [hinv, Bool.false_eq_true, if_false, hgen, hroom]
    refine ⟨_, List.getElem?_set_self hlt, rfl, rfl, rfl⟩

/-- A finished compilation with one outgoing branch, for the C9 witness. -/
def uW9 : EmitUnit := { endPos := 1, outTargets := [(1, initial 0)], deps := [] }

/-- A graph holding one block and one pending branch. -/
def gW9 : Graph := (publish emptyGraph 0 (initial 0) uW9).2

theorem claim_C9_witness :
    ∃ br2, (resolve 0 gW9 0 0).branches[0]? = some br2 ∧
      br2.genericDispatch = true ∧ br2.patchedAddr = some genericStubAddr ∧
      br2.resolvedTargets = [] := by
  have h := claim_C9.2 0 gW9 0 0 (mkPendingBranch 0 (1, initial 0))
    (mkBlock emptyGraph 0 (initial 0) uW9)
    (by decide) (by decide) (by decide) (by decide) (by decide)
  obtain ⟨br2, h1, h2, h3, h4⟩ := h
  exact ⟨br2, h1, h2, h3, h4⟩

/-- Every resolved branch's patched bytes correspond exactly to the
branch's current target (spec §3 invariant): a directly resolved branch
jumps to the code address of the head of its resolved-target table, a
generic-dispatch branch jumps to the generic stub. -/
def patchOk (g : Graph) : Prop :=
  ∀ br ∈ g.branches, br.state = BranchState.resolved →
    (br.genericDispatch = true → br.patchedAddr = some genericStubAddr) ∧
    (br.genericDispatch = false →
      ∃ tid blk, br.resolvedTargets.head? = some tid ∧ g.blocks[tid]? = some blk ∧
        br.patchedAddr = some blk.addr)

theorem patchOk_step (emit : Nat → Context → Option EmitUnit) (maxT : Nat)
    (g : Graph) (op : GraphOp) (h : patchOk g) : patchOk (applyOp emit maxT g op) := by
  cases op with
  | fos pos ctx =>
      intro br hbr hres
      have hb2 : (applyOp emit maxT g (GraphOp.fos pos ctx)).branches = g.branches :=
        find_or_stub_branches g pos ctx
      have hb3 : (applyOp emit maxT g (GraphOp.fos pos ctx)).blocks = g.blocks :=
        find_or_stub_blocks g pos ctx
      rw [hb2] at hbr
      obtain ⟨c1, c2⟩ := h br hbr hres
      refine ⟨c1, fun hgen => ?_⟩
      obtain ⟨tid, blk, h1, h2, h3⟩ := c2 hgen
      refine ⟨tid, blk, h1, ?_, h3⟩
      rw [hb3]
      exact h2
  | compileOp pos ctx =>
      show patchOk (match compile_block emit g pos ctx with
        | none => g
        | some r => r.2)
      cases he : emit pos ctx with
      | none => simp only [compile_block, he]; exact h
      | some u =>
          simp only [compile_block, he]
          cases hl : lookupIndex g.index pos ctx with
          | some bid => simp only [publish, hl]; exact h
          | none =>
              simp only [publish, hl]
              intro br hbr hres
              rcases List.mem_append.mp hbr with hold | hnew
              · obtain ⟨c1, c2⟩ := h br hold hres
                refine ⟨c1, fun hgen => ?_⟩
                obtain ⟨tid, blk, h1, h2, h3⟩ := c2 hgen
                have hlt : tid < g.blocks.length := (List.getElem?_eq_some_iff.mp h2).1
                refine ⟨tid, blk, h1, ?_, h3⟩
                show (g.blocks ++ [mkBlock g pos ctx u])[tid]? = some blk
                rw [List.getElem?_append_left hlt]
                exact h2
              · obtain ⟨t, _, rfl⟩ := List.mem_map.mp hnew
                cases hres
  | resolveOp brId bid =>
      show patchOk (resolve maxT g brId bid)
      unfold resolve
      cases hbr0 : g.branches[brId]? with
      | none => exact h
      | some br0 =>
          cases hbl0 : g.blocks[bid]? with
          | none => exact h
          | some blkb =>
              by_cases hinv : blkb.invalidated = true
              · simp only [hinv, if_true]; exact h
              · simp only [hinv, if_false]
                by_cases hgen0 : br0.genericDispatch = true
                · simp only [hgen0, if_true]; exact h
                · simp only [hgen0, if_false]
                  by_cases hroom : br0.resolvedTargets.length < maxT
                  · simp only [hroom, if_true]
                    intro br hbr hres
                    have hltb : bid < g.blocks.length :=
                      (List.getElem?_eq_some_iff.mp hbl0).1
                    rcases List.mem_or_eq_of_mem_set hbr with hold | heq
                    · obtain ⟨c1, c2⟩ := h br hold hres
                      refine ⟨c1, fun hgen => ?_⟩
                      obtain ⟨tid, blk, h1, h2, h3⟩ := c2 hgen
                      by_cases htid : bid = tid
                      · subst htid
                        rw [hbl0] at h2
                        cases h2
                        exact ⟨bid, _, h1, List.getElem?_set_self hltb, h3⟩
                      · refine ⟨tid, blk, h1, ?_, h3⟩
                        show (g.blocks.set bid _)[tid]? = some blk
                        exact (List.getElem?_set_ne htid).trans h2
                    · subst heq
                      refine ⟨fun hg2 => Bool.noConfusion hg2, fun _ => ?_⟩
                      exact ⟨bid, _, rfl, List.getElem?_set_self hltb, rfl⟩
                  · simp only [hroom, if_false]
                    intro br hbr hres
                    rcases List.mem_or_eq_of_mem_set hbr with hold | heq
                    · obtain ⟨c1, c2⟩ := h br hold hres
                      exact ⟨c1, c2⟩
                    · subst heq
                      refine ⟨fun _ => rfl, fun hg2 => ?_⟩
                      cases hg2
  | invalidateAllOp key =>
      have he : applyOp emit maxT g (GraphOp.invalidateAllOp key) =
          invalidate_all g key := rfl
      rw [he]
      intro br hbr hres
      rw [invalidate_all_branches] at hbr
      obtain ⟨c1, c2⟩ := h br hbr hres
      refine ⟨c1, fun hgen => ?_⟩
      obtain ⟨tid, blk, h1, h2, h3⟩ := c2 hgen
      obtain ⟨blk2, hb2, hf⟩ := foldl_invalidate_frame (depsOf g key) g tid blk h2
      refine ⟨tid, blk2, h1, hb2, ?_⟩
      rw [h3, hf.2.2.1]
  | assumeOp key bid =>
      intro br hbr hres
      exact h br hbr hres

/-- C8: `resolve(branch, target_block)` patches the branch's recorded
bytes to jump to the target block's code address, transitions the branch
to the resolved state, and adds the branch to the target block's
incoming list; and in every graph reachable by the public operations,
every resolved branch's patched bytes correspond exactly to that
branch's current target — no stale patch ever exists. -/
theorem claim_C8 :
    (∀ maxT (g : Graph) (brId bid : Nat) (br : Branch) (blk : Block),
      g.branches[brId]? = some br → g.blocks[bid]? = some blk →
      blk.invalidated = false → br.genericDispatch = false →
      br.resolvedTargets.length < maxT →
      ∃ br2 blk2, (resolve maxT g brId bid).branches[brId]? = some br2 ∧
        (resolve maxT g brId bid).blocks[bid]? = some blk2 ∧
        br2.state = BranchState.resolved ∧
        br2.patchedAddr = some blk.addr ∧
        br2.resolvedTargets.head? = some bid ∧
        brId ∈ blk2.incoming) ∧
    (∀ emit maxT ops, patchOk (applyOps emit maxT ops)) := by
  constructor
  · intro maxT g brId bid br blk hbr hbl hinv hgen hroom
    have hltr : brId < g.branches.length := (List.getElem?_eq_some_iff.mp hbr).1
    have hltb : bid < g.blocks.length := (List.getElem?_eq_some_iff.mp hbl).1
    unfold resolve
    rw [hbr, hbl]
    simp only [hinv, Bool.false_eq_true, if_false, hgen, hroom, if_true]
    refine ⟨_, _, List.getElem?_set_self hltr, List.getElem?_set_self hltb,
      rfl, rfl, rfl, List.mem_cons_self _ _⟩
  · intro emit maxT ops
    have hgen2 : ∀ (l : List GraphOp) (g : Graph), patchOk g →
        patchOk (l.foldl (applyOp emit maxT) g) := by
      intro l
      induction l with
      | nil => intro g hg; exact hg
      | cons op rest ih =>
          intro g hg
          exact ih (applyOp emit maxT g op) (patchOk_step emit maxT g op hg)
    exact hgen2 ops emptyGraph (fun br hbr => absurd hbr (List.not_mem_nil br))

/-- Modelled from the spec (§3): the only mutations allowed on a block
after publication — linking an incoming or outgoing branch and setting
the invalidated flag. -/
inductive PostPubOp where
  | addIncoming (brId : Nat)
  | addOutgoing (brId : Nat)
  | setInvalidated
deriving DecidableEq, Repr

/-- Apply a post-publication mutation to a block. -/
def applyPostPub : PostPubOp → Block → Block
  | PostPubOp.addIncoming brId, b => { b with incoming := brId :: b.incoming }
  | PostPubOp.addOutgoing brId, b => { b with outgoing := brId :: b.outgoing }
  | PostPubOp.setInvalidated, b => { b with invalidated := true }

theorem applyOp_frame (emit : Nat → Context → Option EmitUnit) (maxT : Nat)
    (g : Graph) (op : GraphOp) (bid : Nat) (blk : Block)
    (h : g.blocks[bid]? = some blk) :
    ∃ blk2, (applyOp emit maxT g op).blocks[bid]? = some blk2 ∧ blockFrame blk2 blk := by
  cases op with
  | fos pos ctx =>
      refine ⟨blk, ?_, blockFrame_refl blk⟩
      have hb : (applyOp emit maxT g (GraphOp.fos pos ctx)).blocks = g.blocks :=
        find_or_stub_blocks g pos ctx
      rw [hb]
      exact h
  | compileOp pos ctx =>
      show ∃ blk2, (match compile_block emit g pos ctx with
        | none => g
        | some r => r.2).blocks[bid]? = some blk2 ∧ blockFrame blk2 blk
      cases he : emit pos ctx with
      | none =>
          simp only [compile_block, he]
          exact ⟨blk, h, blockFrame_refl blk⟩
      | some u =>
          simp only [compile_block, he]
          cases hl : lookupIndex g.index pos ctx with
          | some b2 =>
              simp only [publish, hl]
              exact ⟨blk, h, blockFrame_refl blk⟩
          | none =>
              simp only [publish, hl]
              have hlt : bid < g.blocks.length := (List.getElem?_eq_some_iff.mp h).1
              refine ⟨blk, ?_, blockFrame_refl blk⟩
              show (g.blocks ++ [mkBlock g pos ctx u])[bid]? = some blk
              rw [List.getElem?_append_left hlt]
              exact h
  | resolveOp brId b2 => exact resolve_frame maxT g brId b2 bid blk h
  | invalidateAllOp key => exact foldl_invalidate_frame (depsOf g key) g bid blk h
  | assumeOp key b2 => exact ⟨blk, h, blockFrame_refl blk⟩

/-- C7: During the compilation of any block, the state machine
`Start → Emitting → {Ended-Normal, Ended-Guard-Exit, Ended-Unsupported}
→ Published` never transitions back to `Emitting` after any terminal
state is reached; a post-publication mutation changes nothing but the
branch lists and the invalidated flag, so a block's identity (bytecode
start position, context) and generated-code attributes never change; and
the same frame holds for every block across every public graph
operation. -/
theorem claim_C7 :
    (∀ s t, compSteps s t → isTerminal s →
      isTerminal t ∧ t ≠ CompState.emitting) ∧
    (∀ (op : PostPubOp) (b : Block),
      (applyPostPub op b).pos = b.pos ∧ (applyPostPub op b).ctx = b.ctx ∧
      (applyPostPub op b).addr = b.addr ∧ (applyPostPub op b).endPos = b.endPos ∧
      (applyPostPub op b).deps = b.deps) ∧
    (∀ emit maxT (g : Graph) (op : GraphOp) (bid : Nat) (blk : Block),
      g.blocks[bid]? = some blk →
      ∃ blk2, (applyOp emit maxT g op).blocks[bid]? = some blk2 ∧
        blk2.pos = blk.pos ∧ blk2.ctx = blk.ctx ∧ blk2.addr = blk.addr ∧
        blk2.endPos = blk.endPos ∧ blk2.deps = blk.deps) := by
  refine ⟨?_, ?_, ?_⟩
  · intro s t hst
    induction hst with
    | refl =>
        intro hterm
        refine ⟨hterm, ?_⟩
        rcases hterm with h | h | h | h <;> (subst h; intro hc; cases hc)
    | tail hst2 hstep ih =>
        intro hterm
        obtain ⟨hterm2, _⟩ := ih hterm
        cases hstep with
        | beginEmit => rcases hterm2 with h | h | h | h <;> cases h
        | appendInsn => rcases hterm2 with h | h | h | h <;> cases h
        | endNormal => rcases hterm2 with h | h | h | h <;> cases h
        | endGuard => rcases hterm2 with h | h | h | h <;> cases h
        | endUnsupported => rcases hterm2 with h | h | h | h <;> cases h
        | publishNormal =>
            exact ⟨Or.inr (Or.inr (Or.inr rfl)), fun hc => by cases hc⟩
        | publishGuard =>
            exact ⟨Or.inr (Or.inr (Or.inr rfl)), fun hc => by cases hc⟩
        | publishUnsupported =>
            exact ⟨Or.inr (Or.inr (Or.inr rfl)), fun hc => by cases hc⟩
  · intro op b
    cases op with
    | addIncoming brId => exact ⟨rfl, rfl, rfl, rfl, rfl⟩
    | addOutgoing brId => exact ⟨rfl, rfl, rfl, rfl, rfl⟩
    | setInvalidated => exact ⟨rfl, rfl, rfl, rfl, rfl⟩
  · intro emit maxT g op bid blk h
    obtain ⟨blk2, h2, hf⟩ := applyOp_frame emit maxT g op bid blk h
    exact ⟨blk2, h2, hf.1, hf.2.1, hf.2.2.1, hf.2.2.2.1, hf.2.2.2.2.1⟩

theorem claim_C7_witness :
    (isTerminal CompState.published ∧ CompState.published ≠ CompState.emitting) ∧
    (∃ blk2, (applyOp (emitOfProg progMyst) 2 gW9
        (GraphOp.resolveOp 0 0)).blocks[0]? = some blk2 ∧
      blk2.pos = (mkBlock emptyGraph 0 (initial 0) uW9).pos ∧
      blk2.ctx = (mkBlock emptyGraph 0 (initial 0) uW9).ctx ∧
      blk2.addr = (mkBlock emptyGraph 0 (initial 0) uW9).addr ∧
      blk2.endPos = (mkBlock emptyGraph 0 (initial 0) uW9).endPos ∧
      blk2.deps = (mkBlock emptyGraph 0 (initial 0) uW9).deps) := by
  refine ⟨?_, ?_⟩
  · exact claim_C7.1 CompState.endedNormal CompState.published
      (compSteps.tail (compSteps.refl CompState.endedNormal) compStep.publishNormal)
      (Or.inl rfl)
  · exact claim_C7.2.2 (emitOfProg progMyst) 2 gW9 (GraphOp.resolveOp 0 0) 0
      (mkBlock emptyGraph 0 (initial 0) uW9) (by decide)

theorem claim_C8_witness :
    ∃ br2 blk2, (resolve 2 gW9 0 0).branches[0]? = some br2 ∧
      (resolve 2 gW9 0 0).blocks[0]? = some blk2 ∧
      br2.state = BranchState.resolved ∧
      br2.patchedAddr = some (mkBlock emptyGraph 0 (initial 0) uW9).addr ∧
      br2.resolvedTargets.head? = some 0 ∧
      0 ∈ blk2.incoming :=
  claim_C8.1 2 gW9 0 0 (mkPendingBranch 0 (1, initial 0))
    (mkBlock emptyGraph 0 (initial 0) uW9)
    (by decide) (by decide) (by decide) (by decide) (by decide)

end YJIT
